import Mathlib

/-!
Shallow embedding of the `recurrence` crate (daily/weekly recurrence rules over
timezone-aware instants, with a deduplicating k-way merge).

Modelling conventions:
* An absolute instant (`SystemTime`, and chrono's `NaiveDateTime` interpreted as
  UTC) is an `Int` counting whole seconds since the Unix epoch.  Sub-second
  precision carries through every conversion in the source unchanged, so it is
  dropped here.
* A chrono `DateTime<Tz>` is the pair of its instant (its `naive_utc()` value)
  and the zone; the zone is carried separately in the iterator state.
* A timezone (`chrono_tz::Tz`) is its offset-resolution capability: the
  UTC offset (`local_minus_utc`, seconds) at any instant, plus the
  local-to-instant resolution used by chrono's
  `from_local_datetime(..).single()` (which `Date::and_time` calls); the latter
  returns `none` on an ambiguous or nonexistent local time, matching the
  `Option` that the source unwraps with `.expect("bug: and_time")`.
* A Rust function that can panic is embedded returning `Option`, with `none`
  for the panic.
-/

namespace Recurrence

/-- A timezone: offset lookup per instant, and single-result local-to-instant
resolution (chrono's `from_local_datetime(..).single()`). -/
structure Tz where
  offset : Int → Int
  fromLocal : Int → Option Int

/-- The local (wall-clock) timestamp of an instant, in seconds:
chrono's `naive_local()` as seconds since the local epoch. -/
def localOf (tz : Tz) (t : Int) : Int := t + tz.offset t

/-- The local calendar date of an instant, as a day number
(`DateTime::date()`).  chrono decomposes with floored division; `/` on `Int`
is Euclidean division, which coincides with floored division for the
positive divisor 86400. -/
def localDate (tz : Tz) (t : Int) : Int := localOf tz t / 86400

/-- The local time-of-day of an instant, in seconds (`DateTime::time()`,
always in `[0, 86400)` like chrono's `NaiveTime`). -/
def localTime (tz : Tz) (t : Int) : Int := localOf tz t % 86400

/-- The UTC timezone: offset 0 everywhere, local resolution is the identity. -/
def utc : Tz where
  offset _ := 0
  fromLocal l := some l

/-- A fixed-offset timezone with offset `c` seconds east of UTC. -/
def fixedTz (c : Int) : Tz where
  offset _ := c
  fromLocal l := some (l - c)

/-- A timezone with a single offset transition at instant `T0`: offset `o1`
before the transition, `o2` from it on.  `fromLocal` mirrors chrono's
`single()`: `none` when the local time is ambiguous (fall-back overlap) or
nonexistent (spring-forward gap). -/
def twoPhase (T0 o1 o2 : Int) : Tz where
  offset t := if t < T0 then o1 else o2
  fromLocal l :=
    let t1 := l - o1
    let t2 := l - o2
    if t1 < T0 then
      if T0 ≤ t2 then none else some t1
    else
      if T0 ≤ t2 then some t2 else none

/-- `from_system_to_naive` (daily.rs, weekly.rs, tz_date_iterator.rs):
`SystemTime::duration_since(UNIX_EPOCH)` panics (`.expect("bug")`) for
instants before the epoch, then rebuilds the same timestamp. -/
def from_system_to_naive (t : Int) : Option Int :=
  if t < 0 then none else some t

/-- `End` as defined in tz_date_iterator.rs: the termination policy with the
`Until` bound already converted to a naive (UTC) timestamp. -/
inductive End where
  | until (u : Int)
  | count (n : Nat)
  | never
deriving DecidableEq, Repr

/-- `crate::End`, the public policy stored in a rule: its shape is pinned by
the `From<crate::End>` impl in tz_date_iterator.rs — `Until` holds a
`SystemTime`, `Count` a nonnegative count, plus `Never`.
(Its own declaration is not among the source files.) -/
inductive CEnd where
  | until (u : Int)
  | count (n : Nat)
  | never
deriving DecidableEq, Repr

/-- `impl From<crate::End> for End` (tz_date_iterator.rs): converts the
`Until` bound with `from_system_to_naive`, which panics before the epoch. -/
def CEnd.toEnd : CEnd → Option End
  | .never => some .never
  | .count n => some (.count n)
  | .until u => (from_system_to_naive u).map End.until

/-- `TzDateIterator` (tz_date_iterator.rs): termination policy, cursor
(`DateTime<Tz>`, split here into instant and zone) and fixed step duration
in seconds. -/
structure TzDateIterator where
  endP : End
  cursor : Int
  tz : Tz
  interval : Int

/-- The cursor-advance of `TzDateIterator::next`:
`next = cursor + interval`, then if the offsets of `next` and `cursor`
differ, `next` is moved back by exactly their difference. -/
def stepNext (tz : Tz) (cursor interval : Int) : Int :=
  let next := cursor + interval
  if tz.offset next ≠ tz.offset cursor then
    let difference := tz.offset next - tz.offset cursor
    next - difference
  else
    next

/-- `TzDateIterator::next`: mirrors the `match self.end` arms in source
order — `Count(0)` stops; `Until(u)` with `u < cursor.naive_utc()` stops;
`Count(n+1)` decrements; otherwise no policy action.  Then the cursor is
advanced with the DST correction and the pre-step cursor is emitted. -/
def TzDateIterator.next (it : TzDateIterator) : Option (Int × TzDateIterator) :=
  match it.endP with
  | .count 0 => none
  | .until u =>
    if u < it.cursor then none
    else some (it.cursor, { it with cursor := stepNext it.tz it.cursor it.interval })
  | .count (n + 1) =>
    some (it.cursor,
      { it with endP := .count n, cursor := stepNext it.tz it.cursor it.interval })
  | .never =>
    some (it.cursor, { it with cursor := stepNext it.tz it.cursor it.interval })

/-- The `n`-th value produced by pulling the iterator `n + 1` times
(`none` once the stream has ended). -/
def nthOcc (it : TzDateIterator) : Nat → Option Int
  | 0 => it.next.map Prod.fst
  | n + 1 =>
    match it.next with
    | none => none
    | some (_, it') => nthOcc it' n

/-- `Daily` (daily.rs): interval in days, zone, start as a naive UTC
timestamp, termination policy. -/
structure Daily where
  interval : Nat
  timezone : Tz
  dtstart : Int
  endP : CEnd

/-- `daily::Options` / `weekly::Options`: all fields optional except the
policy; the policy's `Default` is `Never` (its derivation is outside the
source files; the spec fixes the default as `Never`). -/
structure Options where
  interval : Option Nat := none
  dtstart : Option Int := none
  timezone : Option Tz := none
  endP : CEnd := .never

/-- `Daily::new`: fills defaults (`now` and the host-local zone are the
external collaborators, passed explicitly here) and converts the start with
`from_system_to_naive` (panic before the epoch).  No validation of
`interval` takes place. -/
def Daily.new (now : Int) (localT : Tz) (o : Options) : Option Daily :=
  (from_system_to_naive (o.dtstart.getD now)).map fun d =>
    { dtstart := d
      timezone := o.timezone.getD localT
      interval := o.interval.getD 1
      endP := o.endP }

/-- `Daily::all`: iterator from `start` (interpreted via `from_utc_datetime`,
so the cursor instant is exactly `dtstart`) stepping by `interval` days of
86400 seconds (`Duration::days`). -/
def Daily.all (r : Daily) : Option TzDateIterator :=
  r.endP.toEnd.map fun e =>
    { endP := e
      cursor := r.dtstart
      tz := r.timezone
      interval := (r.interval : Int) * 86400 }

/-- `Daily::after`: converts `min` (panic before epoch); if `min ≤ dtstart`
iterates from `dtstart`, otherwise takes `min`'s local date, bumped by one
day when `dtstart`'s local time-of-day is before `min`'s, recombined with
`dtstart`'s time-of-day via `Date::and_time`
(`from_local_datetime(..).single()`, panic on `None`).  The policy is used
unmodified. -/
def Daily.after (r : Daily) (min : Int) : Option TzDateIterator := do
  let minDt ← from_system_to_naive min
  let dtstart := r.dtstart
  let cursor ←
    if minDt ≤ dtstart then some dtstart
    else
      let time := localTime r.timezone dtstart
      let minDate := localDate r.timezone minDt
      let minDate := if time < localTime r.timezone minDt then minDate + 1 else minDate
      r.timezone.fromLocal (minDate * 86400 + time)
  let e ← r.endP.toEnd
  some { endP := e
         cursor := cursor
         tz := r.timezone
         interval := (r.interval : Int) * 86400 }

/-- `Weekly` (weekly.rs): same shape as `Daily` with a weekly interval. -/
structure Weekly where
  interval : Nat
  timezone : Tz
  dtstart : Int
  endP : CEnd

/-- `Weekly::all`: steps by `interval` weeks (`Duration::weeks`, 604800
seconds each). -/
def Weekly.all (r : Weekly) : Option TzDateIterator :=
  r.endP.toEnd.map fun e =>
    { endP := e
      cursor := r.dtstart
      tz := r.timezone
      interval := (r.interval : Int) * 604800 }

/-- `Datelike::weekday().number_from_monday()` of a day number:
day 0 (1970-01-01) is a Thursday, so Monday = 1 .. Sunday = 7. -/
def weekdayFromMonday (d : Int) : Int := (d + 3) % 7 + 1

/-- An `i64` cast `as usize` (two's-complement wrap into `[0, 2^64)`),
used on the elapsed-weeks value fed to `saturating_sub`. -/
def usizeCast (x : Int) : Nat := (x % (2 ^ 64)).toNat

/-- `Weekly::after`: converts `min` (panic before epoch); when `min` is past
`dtstart`, aligns `min`'s local date forward to `dtstart`'s weekday
(`(start_w + 7 - min_w) % 7`, forced to a full week when the weekdays match
but `dtstart`'s time-of-day is before `min`'s), decrements a `Count` policy
by the whole weeks between the start date and the candidate date
(`num_weeks`, truncating; `saturating_sub` after an `as usize` cast), and
recombines via `Date::and_time`.  Note: the resulting iterator steps by
`Duration::days(interval)`, i.e. `interval` days — not weeks. -/
def Weekly.after (r : Weekly) (min : Int) : Option TzDateIterator := do
  let minDt ← from_system_to_naive min
  let dtstart := r.dtstart
  let (endC, cursor) ←
    if minDt ≤ dtstart then do
      let e ← r.endP.toEnd
      some (e, dtstart)
    else
      let time := localTime r.timezone dtstart
      let startDate := localDate r.timezone dtstart
      let minDate := localDate r.timezone minDt
      let difference :=
        (weekdayFromMonday startDate + 7 - weekdayFromMonday minDate) % 7
      let difference :=
        if difference = 0 ∧ time < localTime r.timezone minDt then 7 else difference
      let date := minDate + difference
      let endAdj : CEnd :=
        match r.endP with
        | .count c => .count (c - usizeCast ((date - startDate).tdiv 7))
        | e => e
      do
        let e ← endAdj.toEnd
        let cur ← r.timezone.fromLocal (date * 86400 + time)
        some (e, cur)
  some { endP := endC
         cursor := cursor
         tz := r.timezone
         interval := (r.interval : Int) * 86400 }

/-- `Weekly::new`: identical construction to `Daily::new`. -/
def Weekly.new (now : Int) (localT : Tz) (o : Options) : Option Weekly :=
  (from_system_to_naive (o.dtstart.getD now)).map fun d =>
    { dtstart := d
      timezone := o.timezone.getD localT
      interval := o.interval.getD 1
      endP := o.endP }

/-!
## The `Set` merge (set.rs)

`Set::merge_recurrences` pulls one value from every sub-stream, keeps each
live sub-iterator paired with its pending value (`IterHolder`) in a min-heap
(`BinaryHeap` of `Reverse` holders, ordered by pending value), and then loops:
pop the minimum holder, pull its next value and reinsert if it yields one,
peek the new minimum and discard the popped value if the new minimum equals
it, otherwise emit the popped value.

Here a sub-stream is a finite list of the values its iterator yields (a
finite prefix in the unbounded case), so a holder is a pair
`(cursor, remaining)`.  The heap is a list of holders; `popMin` removes the
holder with the least pending value (ties broken arbitrarily by the heap in
the source; leftmost here), `peekMin` inspects it without removing.
-/

/-- Build the initial heap: pull one value from every sub-stream, dropping
streams that are already exhausted (the `filter_map` over `iter.next()`). -/
def initHeap (streams : List (List Int)) : List (Int × List Int) :=
  streams.filterMap fun s =>
    match s with
    | [] => none
    | c :: rest => some (c, rest)

/-- Remove the holder with the least pending value (leftmost of the minima),
returning it and the remaining heap; `none` on an empty heap. -/
def popMin : List (Int × List Int) → Option ((Int × List Int) × List (Int × List Int))
  | [] => none
  | e :: rest =>
    match popMin rest with
    | none => some (e, [])
    | some (m, rest') => if e.1 ≤ m.1 then some (e, rest) else some (m, e :: rest')

/-- The least pending value in the heap (`BinaryHeap::peek`). -/
def peekMin (h : List (Int × List Int)) : Option Int :=
  (popMin h).map fun p => p.1.1

theorem popMin_none {h : List (Int × List Int)} (hp : popMin h = none) : h = [] := by
  cases h with
  | nil => rfl
  | cons e rest =>
    simp only [popMin] at hp
    rcases hrest : popMin rest with _ | ⟨m, rest'⟩ <;> simp [hrest] at hp
    split at hp <;> simp at hp

theorem popMin_perm {h : List (Int × List Int)} {e rest}
    (hp : popMin h = some (e, rest)) : h.Perm (e :: rest) := by
  induction h generalizing e rest with
  | nil => simp [popMin] at hp
  | cons f tail ih =>
    simp only [popMin] at hp
    rcases htail : popMin tail with _ | ⟨⟨m, rest'⟩⟩ <;> rw [htail] at hp
    · simp only [Option.some.injEq, Prod.mk.injEq] at hp
      obtain ⟨rfl, rfl⟩ := hp
      have := popMin_none htail
      subst this
      exact List.Perm.refl _
    · by_cases hle : f.1 ≤ m.1
      · simp only [hle, if_pos, Option.some.injEq, Prod.mk.injEq] at hp
        obtain ⟨rfl, rfl⟩ := hp
        exact List.Perm.refl _
      · simp only [hle, if_neg, not_false_iff, Option.some.injEq, Prod.mk.injEq] at hp
        obtain ⟨rfl, rfl⟩ := hp
        exact ((ih htail).cons f).trans (List.Perm.swap m f rest')

theorem popMin_le {h : List (Int × List Int)} {e rest}
    (hp : popMin h = some (e, rest)) : ∀ f ∈ rest, e.1 ≤ f.1 := by
  induction h generalizing e rest with
  | nil => simp [popMin] at hp
  | cons f tail ih =>
    simp only [popMin] at hp
    rcases htail : popMin tail with _ | ⟨⟨m, rest'⟩⟩ <;> rw [htail] at hp
    · simp only [Option.some.injEq, Prod.mk.injEq] at hp
      obtain ⟨rfl, rfl⟩ := hp
      intro g hg
      simp at hg
    · by_cases hle : f.1 ≤ m.1
      · simp only [hle, if_pos, Option.some.injEq, Prod.mk.injEq] at hp
        obtain ⟨rfl, rfl⟩ := hp
        intro g hg
        have hperm := popMin_perm htail
        have : g ∈ m :: rest' := hperm.mem_iff.mp hg
        rcases List.mem_cons.mp this with rfl | hg'
        · exact hle
        · exact le_trans hle (ih htail g hg')
      · simp only [hle, if_neg, not_false_iff, Option.some.injEq, Prod.mk.injEq] at hp
        obtain ⟨rfl, rfl⟩ := hp
        intro g hg
        rcases List.mem_cons.mp hg with rfl | hg'
        · omega
        · exact ih htail g hg'

/-- Size measure: total number of values still held by the heap. -/
def heapSize (h : List (Int × List Int)) : Nat :=
  (h.map fun e => e.2.length + 1).sum

/-- Reinsertion after a pop: `if let Some(next) = iter.next()` pushes the
holder back keyed by the value just pulled; an exhausted sub-iterator is
silently dropped. -/
def pushNext (iter : List Int) (rest : List (Int × List Int)) : List (Int × List Int) :=
  match iter with
  | [] => rest
  | x :: xs => (x, xs) :: rest

theorem heapSize_pushNext (iter : List Int) (rest : List (Int × List Int)) :
    heapSize (pushNext iter rest) = iter.length + heapSize rest := by
  cases iter <;> simp [pushNext, heapSize]

/-- The full output of the merge loop of `Set::merge_recurrences`: pop the
minimum holder, reinsert it on its next value when its stream still yields
one, and suppress the popped value whenever the new minimum equals it. -/
def mergeAll (h : List (Int × List Int)) : List Int :=
  match hpop : popMin h with
  | none => []
  | some ((c, iter), rest) =>
    let h' := pushNext iter rest
    match peekMin h' with
    | some m => if m = c then mergeAll h' else c :: mergeAll h'
    | none => c :: mergeAll h'
termination_by heapSize h
decreasing_by
  all_goals
    have hperm : h.Perm ((c, iter) :: rest) := popMin_perm hpop
    have hsz : heapSize h = heapSize ((c, iter) :: rest) :=
      List.Perm.sum_eq (hperm.map _)
    simp only [heapSize, List.map_cons, List.sum_cons] at hsz
    rw [heapSize_pushNext]
    simp only [heapSize] at *
    omega

/-- `Set::merge_recurrences` on the lists of values of the sub-streams
(`Set::all` passes each rule's `all()` stream, `Set::after(min)` each rule's
`after(min)` stream). -/
def merge_recurrences (streams : List (List Int)) : List Int :=
  mergeAll (initHeap streams)

/-- The `k`-th value of `Daily::all` (through the `Option` that models the
`Until`-conversion panic). -/
def allOcc (r : Daily) (k : Nat) : Option Int :=
  r.all.bind fun it => nthOcc it k

/-- The `k`-th value of `Daily::after min`. -/
def afterOcc (r : Daily) (min : Int) (k : Nat) : Option Int :=
  (r.after min).bind fun it => nthOcc it k

/-- The `k`-th value of `Weekly::all`. -/
def wAllOcc (r : Weekly) (k : Nat) : Option Int :=
  r.all.bind fun it => nthOcc it k

/-- The `k`-th value of `Weekly::after min`. -/
def wAfterOcc (r : Weekly) (min : Int) (k : Nat) : Option Int :=
  (r.after min).bind fun it => nthOcc it k

/-!
## C3: the merge is globally ordered and deduplicated
-/

/-- Every value a heap still holds: each holder's pending value followed by
its remaining stream. -/
def heapVals (h : List (Int × List Int)) : List Int :=
  h.foldr (fun e a => e.1 :: e.2 ++ a) []

theorem mem_heapVals {x : Int} : ∀ {h : List (Int × List Int)},
    x ∈ heapVals h ↔ ∃ e ∈ h, x = e.1 ∨ x ∈ e.2 := by
  intro h
  induction h with
  | nil => simp [heapVals]
  | cons e t ih =>
    show x ∈ e.1 :: (e.2 ++ heapVals t) ↔ _
    simp only [List.mem_cons, List.mem_append, ih]
    constructor
    · rintro (rfl | hx | ⟨f, hf, hor⟩)
      · exact ⟨e, Or.inl rfl, Or.inl rfl⟩
      · exact ⟨e, Or.inl rfl, Or.inr hx⟩
      · exact ⟨f, Or.inr hf, hor⟩
    · rintro ⟨f, hf, hor⟩
      rcases hf with rfl | hf'
      · rcases hor with rfl | hx
        · exact Or.inl rfl
        · exact Or.inr (Or.inl hx)
      · exact Or.inr (Or.inr ⟨f, hf', hor⟩)

theorem peekMin_none {h : List (Int × List Int)} (hp : peekMin h = none) : h = [] := by
  rw [peekMin] at hp
  exact popMin_none (Option.map_eq_none'.mp hp)

theorem peekMin_le {h : List (Int × List Int)} {m : Int} (hp : peekMin h = some m) :
    ∀ f ∈ h, m ≤ f.1 := by
  rw [peekMin] at hp
  rcases hpop : popMin h with _ | ⟨⟨g, rest⟩⟩
  · rw [hpop] at hp
    simp at hp
  · rw [hpop] at hp
    simp only [Option.map_some', Option.some.injEq] at hp
    subst hp
    intro f hf
    have hperm := popMin_perm hpop
    rcases List.mem_cons.mp (hperm.mem_iff.mp hf) with rfl | hf'
    · exact le_refl _
    · exact popMin_le hpop f hf'

theorem peekMin_mem {h : List (Int × List Int)} {m : Int} (hp : peekMin h = some m) :
    ∃ f ∈ h, f.1 = m := by
  rw [peekMin] at hp
  rcases hpop : popMin h with _ | ⟨⟨g, rest⟩⟩
  · rw [hpop] at hp
    simp at hp
  · rw [hpop] at hp
    simp only [Option.map_some', Option.some.injEq] at hp
    exact ⟨g, (popMin_perm hpop).mem_iff.mpr (List.mem_cons_self g rest), hp⟩

theorem mem_pushNext {f : Int × List Int} {iter : List Int} {rest : List (Int × List Int)} :
    f ∈ pushNext iter rest ↔ (∃ x xs, iter = x :: xs ∧ f = (x, xs)) ∨ f ∈ rest := by
  cases iter with
  | nil => simp [pushNext]
  | cons x xs =>
    simp only [pushNext, List.mem_cons, List.cons.injEq]
    constructor
    · rintro (rfl | hf)
      · exact Or.inl ⟨x, xs, ⟨rfl, rfl⟩, rfl⟩
      · exact Or.inr hf
    · rintro (⟨y, ys, ⟨rfl, rfl⟩, rfl⟩ | hf)
      · exact Or.inl rfl
      · exact Or.inr hf

theorem heapSize_eq_of_popMin {h : List (Int × List Int)} {c : Int} {iter : List Int}
    {rest : List (Int × List Int)} (hpop : popMin h = some ((c, iter), rest)) :
    heapSize h = iter.length + 1 + heapSize rest := by
  have hperm := popMin_perm hpop
  have hsz : heapSize h = heapSize ((c, iter) :: rest) := List.Perm.sum_eq (hperm.map _)
  simp only [heapSize, List.map_cons, List.sum_cons] at hsz ⊢
  omega

theorem mergeAll_nil : mergeAll [] = [] := by
  rw [mergeAll]
  rfl

/-- Correctness of the merge loop: for a heap whose every holder's pending
value heads a nondecreasing stream, the output is *strictly* increasing and
holds exactly the values of the heap — each value once, however many
holders produce it. -/
theorem mergeAll_spec : ∀ (n : Nat) (h : List (Int × List Int)), heapSize h ≤ n →
    (∀ e ∈ h, List.Sorted (· ≤ ·) (e.1 :: e.2)) →
    List.Sorted (· < ·) (mergeAll h) ∧ (∀ x, x ∈ mergeAll h ↔ x ∈ heapVals h) := by
  intro n
  induction n with
  | zero =>
    intro h hsz _
    have hnil : h = [] := by
      cases h with
      | nil => rfl
      | cons e t =>
        simp only [heapSize, List.map_cons, List.sum_cons] at hsz
        omega
    subst hnil
    rw [mergeAll_nil]
    exact ⟨List.sorted_nil, fun x => by simp [heapVals]⟩
  | succ n ih =>
    intro h hsz inv
    rcases hpop : popMin h with _ | ⟨⟨⟨c, iter⟩, rest⟩⟩
    · have hnil := popMin_none hpop
      subst hnil
      rw [mergeAll_nil]
      exact ⟨List.sorted_nil, fun x => by simp [heapVals]⟩
    · have hperm := popMin_perm hpop
      have hmem_pop : (c, iter) ∈ h := hperm.mem_iff.mpr (List.mem_cons_self _ _)
      have hsort_pop : List.Sorted (· ≤ ·) (c :: iter) := inv _ hmem_pop
      have hrest_le : ∀ f ∈ rest, c ≤ f.1 := popMin_le hpop
      have hinv' : ∀ e ∈ pushNext iter rest, List.Sorted (· ≤ ·) (e.1 :: e.2) := by
        intro e he
        rcases mem_pushNext.mp he with ⟨x, xs, hiter, rfl⟩ | he'
        · subst hiter
          exact (List.sorted_cons.mp hsort_pop).2
        · exact inv e (hperm.mem_iff.mpr (List.mem_cons_of_mem _ he'))
      have hcur_le : ∀ f ∈ pushNext iter rest, c ≤ f.1 := by
        intro f hf
        rcases mem_pushNext.mp hf with ⟨x, xs, hiter, rfl⟩ | hf'
        · subst hiter
          exact (List.sorted_cons.mp hsort_pop).1 x (List.mem_cons_self _ _)
        · exact hrest_le f hf'
      have hsize' : heapSize (pushNext iter rest) ≤ n := by
        have h1 := heapSize_eq_of_popMin hpop
        rw [heapSize_pushNext]
        omega
      obtain ⟨ihS, ihM⟩ := ih (pushNext iter rest) hsize' hinv'
      have hsub1 : ∀ x ∈ heapVals (pushNext iter rest), x ∈ heapVals h := by
        intro x hx
        obtain ⟨f, hf, hor⟩ := mem_heapVals.mp hx
        rcases mem_pushNext.mp hf with ⟨y, ys, hiter, rfl⟩ | hf'
        · subst hiter
          refine mem_heapVals.mpr ⟨(c, y :: ys), hmem_pop, Or.inr ?_⟩
          rcases hor with rfl | h2
          · exact List.mem_cons_self _ _
          · exact List.mem_cons_of_mem _ h2
        · exact mem_heapVals.mpr ⟨f, hperm.mem_iff.mpr (List.mem_cons_of_mem _ hf'), hor⟩
      have hsub2 : ∀ x ∈ heapVals h, x = c ∨ x ∈ heapVals (pushNext iter rest) := by
        intro x hx
        obtain ⟨f, hf, hor⟩ := mem_heapVals.mp hx
        rcases List.mem_cons.mp (hperm.mem_iff.mp hf) with rfl | hf'
        · rcases hor with rfl | h2
          · exact Or.inl rfl
          · right
            cases iter with
            | nil => simp at h2
            | cons y ys =>
              refine mem_heapVals.mpr ⟨(y, ys), mem_pushNext.mpr (Or.inl ⟨y, ys, rfl, rfl⟩), ?_⟩
              rcases List.mem_cons.mp h2 with rfl | h3
              · exact Or.inl rfl
              · exact Or.inr h3
        · exact Or.inr (mem_heapVals.mpr ⟨f, mem_pushNext.mpr (Or.inr hf'), hor⟩)
      have hc_mem : c ∈ heapVals h := mem_heapVals.mpr ⟨(c, iter), hmem_pop, Or.inl rfl⟩
      have hunfold : mergeAll h = (match peekMin (pushNext iter rest) with
          | some m => if m = c then mergeAll (pushNext iter rest)
                      else c :: mergeAll (pushNext iter rest)
          | none => c :: mergeAll (pushNext iter rest)) := by
        rw [mergeAll, hpop]
      rw [hunfold]
      rcases hpk : peekMin (pushNext iter rest) with _ | m
      · simp only [hpk]
        have h'nil := peekMin_none hpk
        constructor
        · rw [List.sorted_cons]
          refine ⟨?_, ihS⟩
          intro b hb
          rw [ihM b, h'nil] at hb
          simp [heapVals] at hb
        · intro x
          simp only [List.mem_cons]
          constructor
          · rintro (rfl | hx)
            · exact hc_mem
            · exact hsub1 x ((ihM x).mp hx)
          · intro hx
            rcases hsub2 x hx with rfl | hx'
            · exact Or.inl rfl
            · exact Or.inr ((ihM x).mpr hx')
      · simp only [hpk]
        by_cases hmc : m = c
        · rw [if_pos hmc]
          refine ⟨ihS, ?_⟩
          intro x
          rw [ihM x]
          constructor
          · exact hsub1 x
          · intro hx
            rcases hsub2 x hx with rfl | hx'
            · obtain ⟨f, hf, hf1⟩ := peekMin_mem hpk
              exact mem_heapVals.mpr ⟨f, hf, Or.inl (by rw [hf1, hmc])⟩
            · exact hx'
        · rw [if_neg hmc]
          have hlt : ∀ x ∈ heapVals (pushNext iter rest), c < x := by
            intro x hx
            obtain ⟨f, hf, hor⟩ := mem_heapVals.mp hx
            have h1 : c ≤ m := by
              obtain ⟨g, hg, hg1⟩ := peekMin_mem hpk
              rw [← hg1]
              exact hcur_le g hg
            have h2 : m ≤ f.1 := peekMin_le hpk f hf
            have h3 : c < f.1 :=
              lt_of_lt_of_le (lt_of_le_of_ne h1 (fun he => hmc he.symm)) h2
            rcases hor with rfl | hx2
            · exact h3
            · exact lt_of_lt_of_le h3 ((List.sorted_cons.mp (hinv' f hf)).1 x hx2)
          constructor
          · rw [List.sorted_cons]
            exact ⟨fun b hb => hlt b ((ihM b).mp hb), ihS⟩
          · intro x
            simp only [List.mem_cons]
            constructor
            · rintro (rfl | hx)
              · exact hc_mem
              · exact hsub1 x ((ihM x).mp hx)
            · intro hx
              rcases hsub2 x hx with rfl | hx'
              · exact Or.inl rfl
              · exact Or.inr ((ihM x).mpr hx')

/-- C3: with every sub-stream individually nondecreasing, the merged stream
of `Set::merge_recurrences` (used by both `Set::all` and `Set::after`) is
globally *strictly* increasing — hence non-decreasing with no duplicate
instants — and its values are exactly the values of the sub-streams: an
instant produced by two or more sub-streams (or twice by one) survives
exactly once. -/
theorem c3_merge_sorted_dedup (streams : List (List Int))
    (hs : ∀ s ∈ streams, List.Sorted (· ≤ ·) s) :
    List.Sorted (· < ·) (merge_recurrences streams) ∧
    (∀ x, x ∈ merge_recurrences streams ↔ ∃ s ∈ streams, x ∈ s) := by
  have hinv : ∀ e ∈ initHeap streams, List.Sorted (· ≤ ·) (e.1 :: e.2) := by
    intro e he
    rw [initHeap] at he
    obtain ⟨s0, hs0, hmap⟩ := List.mem_filterMap.mp he
    cases s0 with
    | nil => simp at hmap
    | cons a as =>
      simp only [Option.some.injEq] at hmap
      rw [← hmap]
      exact hs _ hs0
  obtain ⟨hS, hM⟩ := mergeAll_spec (heapSize (initHeap streams)) (initHeap streams) le_rfl hinv
  rw [show merge_recurrences streams = mergeAll (initHeap streams) from rfl]
  refine ⟨hS, ?_⟩
  intro x
  rw [hM x]
  constructor
  · intro hx
    obtain ⟨e, he, hor⟩ := mem_heapVals.mp hx
    rw [initHeap] at he
    obtain ⟨s0, hs0, hmap⟩ := List.mem_filterMap.mp he
    cases s0 with
    | nil => simp at hmap
    | cons a as =>
      simp only [Option.some.injEq] at hmap
      refine ⟨a :: as, hs0, ?_⟩
      rw [← hmap] at hor
      rcases hor with rfl | h2
      · exact List.mem_cons_self _ _
      · exact List.mem_cons_of_mem _ h2
  · rintro ⟨s0, hs0, hx⟩
    cases s0 with
    | nil => simp at hx
    | cons a as =>
      refine mem_heapVals.mpr ⟨(a, as), ?_, ?_⟩
      · rw [initHeap]
        exact List.mem_filterMap.mpr ⟨a :: as, hs0, rfl⟩
      · rcases List.mem_cons.mp hx with rfl | h2
        · exact Or.inl rfl
        · exact Or.inr h2

theorem c3_merge_sorted_dedup_witness :
    List.Sorted (· < ·) (merge_recurrences [[0, 86400], [0, 604800]]) ∧
    (∀ x, x ∈ merge_recurrences [[0, 86400], [0, 604800]] ↔
      ∃ s ∈ [[(0 : Int), 86400], [0, 604800]], x ∈ s) :=
  c3_merge_sorted_dedup [[0, 86400], [0, 604800]] (by decide)

/-!
## Basic stream lemmas
-/

theorem stepNext_constOffset {tz : Tz} {c : Int} (hc : ∀ t, tz.offset t = c)
    (cur I : Int) : stepNext tz cur I = cur + I := by
  simp [stepNext, hc]

theorem nthOcc_never (tz : Tz) (I cur : Int) :
    ∀ k, nthOcc ⟨.never, cur, tz, I⟩ k =
      some ((fun c => stepNext tz c I)^[k] cur)
  | 0 => by simp [nthOcc, TzDateIterator.next]
  | k + 1 => by
    simp only [nthOcc, TzDateIterator.next]
    rw [nthOcc_never tz I (stepNext tz cur I) k, Function.iterate_succ_apply]

theorem nthOcc_never_constOffset {tz : Tz} {c : Int} (hc : ∀ t, tz.offset t = c)
    (cur I : Int) (k : Nat) :
    nthOcc ⟨.never, cur, tz, I⟩ k = some (cur + k * I) := by
  rw [nthOcc_never]
  congr 1
  induction k generalizing cur with
  | zero => simp
  | succ k ih =>
    rw [Function.iterate_succ_apply, stepNext_constOffset hc, ih]
    push_cast
    ring

theorem nthOcc_count_isSome (tz : Tz) (I cur : Int) (n m : Nat) :
    (nthOcc ⟨.count n, cur, tz, I⟩ m).isSome ↔ m < n := by
  induction m generalizing n cur with
  | zero =>
    cases n <;> simp [nthOcc, TzDateIterator.next]
  | succ m ih =>
    cases n with
    | zero => simp [nthOcc, TzDateIterator.next]
    | succ n =>
      simpa [nthOcc, TzDateIterator.next, ih] using Nat.succ_lt_succ_iff.symm

theorem nthOcc_count_constOffset {tz : Tz} {c : Int} (hc : ∀ t, tz.offset t = c)
    (cur I : Int) (n m : Nat) :
    nthOcc ⟨.count n, cur, tz, I⟩ m = if m < n then some (cur + m * I) else none := by
  induction m generalizing n cur with
  | zero =>
    cases n <;> simp [nthOcc, TzDateIterator.next]
  | succ m ih =>
    cases n with
    | zero => simp [nthOcc, TzDateIterator.next]
    | succ n =>
      simp only [nthOcc, TzDateIterator.next]
      rw [ih, stepNext_constOffset hc]
      by_cases hmn : m < n
      · simp only [hmn, if_pos, Nat.succ_lt_succ_iff.mpr hmn, if_pos]
        congr 1
        push_cast
        ring
      · simp [hmn, fun hco => hmn (Nat.succ_lt_succ_iff.mp hco)]

/-!
## C4: `Count(n)` yields exactly `n` occurrences, then permanent exhaustion
-/

/-- C4: for every `n ≥ 0`, a Daily or Weekly rule with policy `Count n`
yields (from `all()`) a value at position `m` exactly when `m < n` — so
exactly `n` occurrences, every later pull yields nothing, and `Count 0`
yields none. -/
theorem c4_count_exact (i : Nat) (tz : Tz) (s : Int) (n : Nat) :
    (∃ it, Daily.all ⟨i, tz, s, .count n⟩ = some it ∧
      ∀ m, (nthOcc it m).isSome ↔ m < n) ∧
    (∃ it, Weekly.all ⟨i, tz, s, .count n⟩ = some it ∧
      ∀ m, (nthOcc it m).isSome ↔ m < n) := by
  refine ⟨⟨_, rfl, ?_⟩, ⟨_, rfl, ?_⟩⟩ <;>
    exact fun m => nthOcc_count_isSome tz _ s n m

/-!
## C8: the first value of `all()` is exactly `start`
-/

/-- C8: for every interval, zone and start, whenever `all()` yields a first
value it equals `start` exactly; with the (default) `Never` policy it always
does. -/
theorem c8_first_is_start (i : Nat) (tz : Tz) (s : Int) (e : CEnd) :
    (∀ it v, Daily.all ⟨i, tz, s, e⟩ = some it → nthOcc it 0 = some v → v = s) ∧
    (∀ it v, Weekly.all ⟨i, tz, s, e⟩ = some it → nthOcc it 0 = some v → v = s) ∧
    (∃ it, Daily.all ⟨i, tz, s, .never⟩ = some it ∧ nthOcc it 0 = some s) ∧
    (∃ it, Weekly.all ⟨i, tz, s, .never⟩ = some it ∧ nthOcc it 0 = some s) := by
  refine ⟨?_, ?_, ⟨_, rfl, by simp [nthOcc, TzDateIterator.next]⟩,
    ⟨_, rfl, by simp [nthOcc, TzDateIterator.next]⟩⟩ <;>
  · intro it v hall h0
    rcases he : e.toEnd with _ | e'
    · simp [Daily.all, Weekly.all, he] at hall
    · simp only [Daily.all, Weekly.all, he, Option.map_some', Option.some.injEq] at hall
      subst hall
      rcases e' with u | n | _
      · simp only [nthOcc, TzDateIterator.next] at h0
        split at h0 <;> simp_all
      · rcases n with _ | n <;> simp [nthOcc, TzDateIterator.next] at h0 <;> omega
      · simp only [nthOcc, TzDateIterator.next, Option.map_some', Option.some.injEq] at h0
        omega

theorem c8_first_is_start_witness : (5 : Int) = 5 :=
  (c8_first_is_start 1 utc 5 .never).1
    { endP := .never, cursor := 5, tz := utc, interval := ((1 : Nat) : Int) * 86400 }
    5 rfl rfl

/-!
## C9: pre-epoch instants panic at every `SystemTime` conversion
-/

/-- C9: every entry point that converts a caller-supplied `SystemTime`
(`new` with an explicit `dtstart`, `after(min)`, and the `Until(u)` policy
conversion performed when `all()` builds the iterator) panics — modelled as
`none` — on an instant strictly before the Unix epoch; at or after the
epoch the conversion always succeeds. -/
theorem c9_pre_epoch_panics (t : Int) (ht : t < 0) :
    from_system_to_naive t = none ∧
    (∀ now ltz i zone e_, Daily.new now ltz ⟨i, some t, zone, e_⟩ = none) ∧
    (∀ now ltz i zone e_, Weekly.new now ltz ⟨i, some t, zone, e_⟩ = none) ∧
    (∀ r : Daily, r.after t = none) ∧
    (∀ r : Weekly, r.after t = none) ∧
    CEnd.toEnd (.until t) = none ∧
    (∀ i tz s, Daily.all ⟨i, tz, s, .until t⟩ = none) ∧
    (∀ u : Int, 0 ≤ u → (from_system_to_naive u).isSome) := by
  have hn : from_system_to_naive t = none := by
    simp [from_system_to_naive, ht]
  refine ⟨hn, ?_, ?_, ?_, ?_, ?_, ?_, ?_⟩
  · intro now ltz i zone e_
    simp [Daily.new, Option.getD, hn]
  · intro now ltz i zone e_
    simp [Weekly.new, Option.getD, hn]
  · intro r
    simp [Daily.after, hn]
  · intro r
    simp [Weekly.after, hn]
  · simp [CEnd.toEnd, hn]
  · intro i tz s
    simp [Daily.all, CEnd.toEnd, hn]
  · intro u hu
    simp [from_system_to_naive]
    omega

theorem c9_pre_epoch_panics_witness :
    from_system_to_naive (-1) = none ∧ CEnd.toEnd (.until (-1)) = none :=
  ⟨(c9_pre_epoch_panics (-1) (by decide)).1,
   (c9_pre_epoch_panics (-1) (by decide)).2.2.2.2.2.1⟩

/-!
## C10: interval 0 is accepted and yields a constant stream
-/

/-- C10: `Daily::new`/`Weekly::new` accept `interval = 0` without error
(no validation of the `interval ≥ 1` precondition), and the iterator of
`all()` then yields `start` on every pull, never advancing. -/
theorem c10_zero_interval (now s : Int) (ltz tz : Tz) (hs : 0 ≤ s) :
    Daily.new now ltz ⟨some 0, some s, some tz, .never⟩ = some ⟨0, tz, s, .never⟩ ∧
    Weekly.new now ltz ⟨some 0, some s, some tz, .never⟩ = some ⟨0, tz, s, .never⟩ ∧
    (∀ it, Daily.all ⟨0, tz, s, .never⟩ = some it → ∀ m, nthOcc it m = some s) ∧
    (∀ it, Weekly.all ⟨0, tz, s, .never⟩ = some it → ∀ m, nthOcc it m = some s) := by
  have hsome : from_system_to_naive s = some s := by
    simp [from_system_to_naive]
    omega
  have hstep0 : ∀ I cur : Int, I = 0 → stepNext tz cur I = cur := by
    intro I cur hI
    simp [stepNext, hI]
  refine ⟨by simp [Daily.new, Option.getD, hsome], by simp [Weekly.new, Option.getD, hsome],
    ?_, ?_⟩ <;>
  · intro it hall m
    simp only [Daily.all, Weekly.all, CEnd.toEnd, hsome, Option.map_some',
      Option.some.injEq] at hall
    subst hall
    rw [nthOcc_never]
    congr 1
    exact @Function.iterate_fixed Int (fun c => stepNext tz c (((0 : Nat) : Int) * 86400)) s
      (hstep0 (((0 : Nat) : Int) * 86400) s (by norm_num)) m

theorem c10_zero_interval_witness :
    Daily.new 0 utc ⟨some 0, some 5, some utc, .never⟩ = some ⟨0, utc, 5, .never⟩ :=
  (c10_zero_interval 0 5 utc utc (by decide)).1

/-!
## C2: the DST correction of the stepping iterator
-/

/-- C2: on a production step, (i) when the offsets of `cursor + increment`
and `cursor` differ, the new cursor is the sum shifted backward by exactly
that offset delta; (ii) whenever the shifted instant still resolves to the
same offset as the unshifted one (the shift does not cross a second
transition), the local wall-clock timestamp advances by exactly the nominal
increment, so a whole-day increment preserves the local time of day; and
(iii) for a Daily rule in a single-transition zone, a step whose nominal
target crosses the transition produces a real-time gap of one nominal day
minus the offset delta — shorter for spring-forward (`o2 > o1`), longer by
the transition magnitude for fall-back (`o2 < o1`). -/
theorem c2_dst_correction :
    (∀ (tz : Tz) (cursor interval : Int),
      tz.offset (cursor + interval) ≠ tz.offset cursor →
        stepNext tz cursor interval =
          cursor + interval - (tz.offset (cursor + interval) - tz.offset cursor)) ∧
    (∀ (tz : Tz) (cursor interval d : Int),
      tz.offset (stepNext tz cursor interval) = tz.offset (cursor + interval) →
        localOf tz (stepNext tz cursor interval) = localOf tz cursor + interval ∧
        (interval = 86400 * d →
          (localOf tz (stepNext tz cursor interval)).emod 86400 =
            (localOf tz cursor).emod 86400)) ∧
    (∀ T0 o1 o2 s : Int, ∀ it : TzDateIterator, ∀ k : Nat, ∀ a b : Int,
      o1 ≠ o2 →
      Daily.all ⟨1, twoPhase T0 o1 o2, s, .never⟩ = some it →
      nthOcc it k = some a → nthOcc it (k + 1) = some b →
      a < T0 → T0 ≤ a + 86400 →
      b - a = 86400 - (o2 - o1)) := by
  have hlocal : ∀ (tz : Tz) (cursor interval : Int),
      tz.offset (stepNext tz cursor interval) = tz.offset (cursor + interval) →
      localOf tz (stepNext tz cursor interval) = localOf tz cursor + interval := by
    intro tz cursor interval hsame
    by_cases h : tz.offset (cursor + interval) = tz.offset cursor
    · simp only [stepNext, ne_eq, h, not_true_eq_false, if_false] at hsame ⊢
      simp only [localOf, hsame, h]
      ring
    · simp only [stepNext, ne_eq, h, not_false_iff, if_true] at hsame ⊢
      simp only [localOf, hsame]
      ring
  refine ⟨?_, ?_, ?_⟩
  · intro tz cursor interval h
    simp [stepNext, h]
  · intro tz cursor interval d hsame
    refine ⟨hlocal tz cursor interval hsame, ?_⟩
    intro hd
    rw [hlocal tz cursor interval hsame, hd]
    show (localOf tz cursor + 86400 * d) % 86400 = localOf tz cursor % 86400
    exact Int.add_mul_emod_self_left _ _ _
  · intro T0 o1 o2 s it k a b hne hall hk hk1 ha1 ha2
    simp only [Daily.all, CEnd.toEnd, Option.map_some', Option.some.injEq] at hall
    subst hall
    rw [nthOcc_never, Option.some.injEq] at hk hk1
    have hb : stepNext (twoPhase T0 o1 o2) a (((1 : Nat) : Int) * 86400) = b := by
      rw [Function.iterate_succ_apply'] at hk1
      rw [hk] at hk1
      exact hk1
    have hoa : (twoPhase T0 o1 o2).offset a = o1 := by
      simp [twoPhase, ha1]
    have hob : (twoPhase T0 o1 o2).offset (a + 86400) = o2 := by
      simp [twoPhase, not_lt.mpr ha2]
    have h1 : (((1 : Nat) : Int) * 86400) = 86400 := by norm_num
    rw [h1] at hb
    rw [stepNext] at hb
    simp only [hoa, hob, ne_eq] at hb
    rw [if_pos (by exact fun hco => hne hco.symm)] at hb
    omega

theorem c2_dst_correction_witness :
    (132800 : Int) - 50000 = 86400 - (-14400 - -18000) :=
  c2_dst_correction.2.2 100000 (-18000) (-14400) 50000
    { endP := .never, cursor := 50000, tz := twoPhase 100000 (-18000) (-14400),
      interval := ((1 : Nat) : Int) * 86400 }
    0 50000 132800 (by decide) rfl (by decide) (by decide) (by decide) (by decide)

/-!
## C5: the `Until(u)` boundary
-/

/-- Closed form of the iterated cursor advance in a constant-offset zone:
no step ever sees an offset change, so the cursor moves by exactly the
nominal increment each time. -/
theorem iterate_stepNext_constOffset {tz : Tz} {c : Int} (hc : ∀ t, tz.offset t = c)
    (cur I : Int) (k : Nat) :
    (fun x => stepNext tz x I)^[k] cur = cur + k * I := by
  induction k generalizing cur with
  | zero => simp
  | succ k ih =>
    rw [Function.iterate_succ_apply]
    rw [show stepNext tz cur I = cur + I from stepNext_constOffset hc cur I]
    rw [ih (cur + I)]
    push_cast
    ring

/-- Characterization of an `Until` stream: position `m` yields a value
exactly when every cursor up to position `m` is at or before the bound, and
the value is the `m`-th cursor (the bound is checked against the *current*
cursor before each emission). -/
theorem nthOcc_until (tz : Tz) (I u : Int) : ∀ (s : Int) (m : Nat),
    nthOcc ⟨.until u, s, tz, I⟩ m =
      if ∀ j, j ≤ m → (fun x => stepNext tz x I)^[j] s ≤ u
      then some ((fun x => stepNext tz x I)^[m] s)
      else none := by
  intro s m
  induction m generalizing s with
  | zero =>
    by_cases h : u < s
    · rw [if_neg]
      · simp [nthOcc, TzDateIterator.next, h]
      · intro hall
        have h0 := hall 0 (le_refl 0)
        simp only [Function.iterate_zero, id_eq] at h0
        omega
    · rw [if_pos]
      · simp [nthOcc, TzDateIterator.next, h]
      · intro j hj
        interval_cases j
        simpa using not_lt.mp h
  | succ m ih =>
    by_cases h : u < s
    · rw [if_neg]
      · simp [nthOcc, TzDateIterator.next, h]
      · intro hall
        have h0 := hall 0 (Nat.zero_le _)
        simp only [Function.iterate_zero, id_eq] at h0
        omega
    · have hL : nthOcc ⟨.until u, s, tz, I⟩ (m + 1)
          = nthOcc ⟨.until u, stepNext tz s I, tz, I⟩ m := by
        simp [nthOcc, TzDateIterator.next, h]
      rw [hL, ih]
      by_cases hc2 : ∀ j, j ≤ m → (fun x => stepNext tz x I)^[j] (stepNext tz s I) ≤ u
      · rw [if_pos hc2, if_pos, Function.iterate_succ_apply]
        intro j hj
        cases j with
        | zero => simpa using not_lt.mp h
        | succ j =>
          rw [Function.iterate_succ_apply]
          exact hc2 j (Nat.succ_le_succ_iff.mp hj)
      · rw [if_neg hc2, if_neg]
        intro hall
        refine hc2 fun j hj => ?_
        rw [← Function.iterate_succ_apply]
        exact hall (j + 1) (Nat.succ_le_succ hj)

/-- C5 counterexample: a Daily rule with `Until(0)` starting at `0` yields
the occurrence whose timestamp exactly equals the bound — the source
stops only when `until < cursor`, so boundary equality is *included*,
where the claim says it is excluded. -/
theorem c5_boundary_counterexample :
    (∃ it, Daily.all ⟨1, utc, 0, .until 0⟩ = some it ∧ nthOcc it 0 = some 0) ∧
    ¬ (0 : Int) < 0 :=
  ⟨⟨_, rfl, by decide⟩, by decide⟩

/-- C5 amended: `Until(u)` yields exactly the occurrences up to the first
cursor past `u`, the comparison being on the naive-UTC timestamp (which is
the absolute instant, since the bound was itself converted from a
`SystemTime`), and an occurrence exactly equal to `u` is *included*.  In a
fixed-offset zone this is exactly the set of occurrences at or before
`u`. -/
theorem c5_until_at_or_before (i : Nat) (tz : Tz) (s u : Int) (hu : 0 ≤ u) :
    Daily.all ⟨i, tz, s, .until u⟩ =
      some { endP := .until u, cursor := s, tz := tz, interval := (i : Int) * 86400 } ∧
    (∀ m, nthOcc { endP := .until u, cursor := s, tz := tz,
                   interval := (i : Int) * 86400 : TzDateIterator } m =
      if ∀ j, j ≤ m → (fun x => stepNext tz x ((i : Int) * 86400))^[j] s ≤ u
      then some ((fun x => stepNext tz x ((i : Int) * 86400))^[m] s)
      else none) ∧
    (∀ (c : Int) (m : Nat), nthOcc { endP := .until u, cursor := s, tz := fixedTz c,
                                     interval := (i : Int) * 86400 : TzDateIterator } m =
      if s + m * ((i : Int) * 86400) ≤ u
      then some (s + m * ((i : Int) * 86400))
      else none) := by
  refine ⟨?_, fun m => nthOcc_until tz _ u s m, ?_⟩
  · simp [Daily.all, CEnd.toEnd, from_system_to_naive, not_lt.mpr hu]
  · intro c m
    have hc : ∀ t, (fixedTz c).offset t = c := fun _ => rfl
    rw [nthOcc_until]
    simp only [iterate_stepNext_constOffset hc]
    have hIpos : (0 : Int) ≤ (i : Int) * 86400 := by positivity
    have hiff : (∀ j, j ≤ m → s + (j : Int) * ((i : Int) * 86400) ≤ u) ↔
        s + (m : Int) * ((i : Int) * 86400) ≤ u := by
      constructor
      · exact fun hall => hall m le_rfl
      · intro hm j hj
        have hjm : (j : Int) ≤ (m : Int) := by exact_mod_cast hj
        nlinarith
    simp only [hiff]

/-!
## C6: `Weekly::after` cuts a `Count` policy by whole weeks, saturating
-/

/-- Evaluation of `Weekly::after` in a fixed-offset zone when the seek point
is a whole number `d ≥ 1` of days past `start`: the weekday alignment pushes
the candidate date `(7 - d % 7) % 7` further days (to the next multiple of a
week past `start`), and a `Count` policy is cut by the resulting number of
whole weeks. -/
theorem weekly_after_whole_days (c : Int) (T n i d : Nat) (hd : 1 ≤ d) :
    Weekly.after ⟨i, fixedTz c, (T : Int), .count n⟩ ((T : Int) + (d : Int) * 86400) =
      some { endP := .count (n - usizeCast (((d : Int) + (7 - (d : Int) % 7) % 7).tdiv 7)),
             cursor := (((T : Int) + c) / 86400 + (d : Int) + (7 - (d : Int) % 7) % 7) * 86400
               + ((T : Int) + c) % 86400 - c,
             tz := fixedTz c, interval := (i : Int) * 86400 } := by
  have h0 : from_system_to_naive ((T : Int) + (d : Int) * 86400)
      = some ((T : Int) + (d : Int) * 86400) := by
    rw [from_system_to_naive, if_neg (by omega)]
  have hgt : ¬ ((T : Int) + (d : Int) * 86400 ≤ (T : Int)) := by omega
  have hteq : localTime (fixedTz c) ((T : Int) + (d : Int) * 86400)
      = localTime (fixedTz c) (T : Int) := by
    simp only [localTime, localOf, fixedTz]
    omega
  have hmindate : localDate (fixedTz c) ((T : Int) + (d : Int) * 86400)
      = localDate (fixedTz c) (T : Int) + d := by
    simp only [localDate, localOf, fixedTz]
    omega
  rw [Weekly.after]
  rw [h0]
  simp only [Option.bind_eq_bind, Option.some_bind, if_neg hgt, hteq, hmindate, lt_irrefl,
    and_false, if_false, CEnd.toEnd]
  simp only [localDate, localTime, localOf, fixedTz]
  have hW : (weekdayFromMonday (((T : Int) + c) / 86400) + 7 -
      weekdayFromMonday (((T : Int) + c) / 86400 + (d : Int))) % 7 = (7 - (d : Int) % 7) % 7 := by
    simp only [weekdayFromMonday]
    omega
  rw [hW]
  have harg : ((T : Int) + c) / 86400 + (d : Int) + (7 - (d : Int) % 7) % 7 - ((T : Int) + c) / 86400
      = (d : Int) + (7 - (d : Int) % 7) % 7 := by ring
  rw [harg]
  simp only [Option.some_bind]

/-- C6: a Weekly rule with `Count n` sought to `d ≥ 1` whole days after
`start` yields exactly `n - ⌈d / 7⌉` occurrences (`Nat` subtraction: the
decrement counts whole *weeks*, not days, and saturates at zero instead of
underflowing); `d = 12, n = 4` gives exactly 2. -/
theorem c6_weekly_count_seek (cz : Int) (T n i d : Nat) (hd : 1 ≤ d)
    (hbound : (d + 6) / 7 < 2 ^ 64) :
    (Weekly.after ⟨i, fixedTz cz, (T : Int), .count n⟩ ((T : Int) + (d : Int) * 86400)).isSome ∧
    ∀ m, (wAfterOcc ⟨i, fixedTz cz, (T : Int), .count n⟩ ((T : Int) + (d : Int) * 86400) m).isSome
      ↔ m < n - (d + 6) / 7 := by
  have he := weekly_after_whole_days cz T n i d hd
  have hcount : usizeCast (((d : Int) + (7 - (d : Int) % 7) % 7).tdiv 7) = (d + 6) / 7 := by
    rw [Int.tdiv_eq_ediv (by omega) (by norm_num), usizeCast]
    omega
  rw [hcount] at he
  refine ⟨by rw [he]; rfl, ?_⟩
  intro m
  rw [wAfterOcc, he, Option.some_bind]
  exact nthOcc_count_isSome (fixedTz cz) _ _ _ m

theorem c6_weekly_count_seek_witness :
    ((wAfterOcc ⟨1, fixedTz 0, ((0 : Nat) : Int), .count 4⟩
        (((0 : Nat) : Int) + ((12 : Nat) : Int) * 86400) 1).isSome ↔ 1 < 4 - (12 + 6) / 7) ∧
    ((wAfterOcc ⟨1, fixedTz 0, ((0 : Nat) : Int), .count 4⟩
        (((0 : Nat) : Int) + ((12 : Nat) : Int) * 86400) 2).isSome ↔ 2 < 4 - (12 + 6) / 7) :=
  ⟨(c6_weekly_count_seek 0 0 4 1 12 (by norm_num) (by norm_num)).2 1,
   (c6_weekly_count_seek 0 0 4 1 12 (by norm_num) (by norm_num)).2 2⟩

/-!
## C1: `after(M)` versus `all()` with the prefix before `M` dropped
-/

/-- The claim C1 relation between the two streams: some drop count `d`
has all earlier `all()` values strictly below `M`, the `d`-th value (when
present) at or past `M`, and the `after`-stream equal to the `all`-stream
shifted by `d`. -/
def SeekIdem (allS afterS : Nat → Option Int) (min : Int) : Prop :=
  ∃ d : Nat, (∀ j, j < d → ∃ v, allS j = some v ∧ v < min) ∧
    (∀ v, allS d = some v → min ≤ v) ∧
    (∀ k, afterS k = allS (d + k))

/-- Evaluation of `Daily::after` in a fixed-offset zone when the seek point
is past `start`: the cursor lands on `min`'s local date (plus one day when
`start`'s time-of-day is earlier than `min`'s) at `start`'s time-of-day. -/
theorem daily_after_seek (c s min : Int) (h0 : 0 ≤ min) (hgt : s < min) :
    Daily.after ⟨1, fixedTz c, s, .never⟩ min =
      some ⟨.never,
        ((min + c) / 86400 + (if (s + c) % 86400 < (min + c) % 86400 then 1 else 0)) * 86400
          + (s + c) % 86400 - c,
        fixedTz c, ((1 : Nat) : Int) * 86400⟩ := by
  rw [Daily.after, show from_system_to_naive min = some min from by
    rw [from_system_to_naive, if_neg (by omega)]]
  simp only [Option.bind_eq_bind, Option.some_bind, if_neg (not_le.mpr hgt)]
  simp only [localDate, localTime, localOf, fixedTz, CEnd.toEnd, Option.some_bind]
  split_ifs with hb
  all_goals
    simp only [Option.some_bind, Option.some.injEq, TzDateIterator.mk.injEq, true_and, and_true]
  all_goals try ring

/-- C1 amended (holds for Daily rules with interval 1 and a `Never` policy
in a fixed-offset zone): `after(M)` yields exactly the stream of `all()`
with the values strictly before `M` dropped. -/
theorem c1_after_drops_prefix (c s min : Int) (h0 : 0 ≤ min) :
    SeekIdem (allOcc ⟨1, fixedTz c, s, .never⟩)
      (afterOcc ⟨1, fixedTz c, s, .never⟩ min) min := by
  have hall : ∀ j : Nat, allOcc ⟨1, fixedTz c, s, .never⟩ j
      = some (s + (j : Int) * (((1 : Nat) : Int) * 86400)) := by
    intro j
    rw [allOcc, show Daily.all ⟨1, fixedTz c, s, .never⟩
        = some ⟨.never, s, fixedTz c, ((1 : Nat) : Int) * 86400⟩ from rfl, Option.some_bind,
      nthOcc_never_constOffset (fun _ => rfl) s (((1 : Nat) : Int) * 86400) j]
  by_cases hle : min ≤ s
  · have hafter : Daily.after ⟨1, fixedTz c, s, .never⟩ min
        = some ⟨.never, s, fixedTz c, ((1 : Nat) : Int) * 86400⟩ := by
      rw [Daily.after, show from_system_to_naive min = some min from by
        rw [from_system_to_naive, if_neg (by omega)]]
      simp only [Option.bind_eq_bind, Option.some_bind, if_pos hle, CEnd.toEnd]
    refine ⟨0, fun j hj => absurd hj (Nat.not_lt_zero j), ?_, ?_⟩
    · intro v hv
      rw [hall 0, Option.some.injEq] at hv
      omega
    · intro k
      rw [afterOcc, hafter, Option.some_bind,
        nthOcc_never_constOffset (fun _ => rfl) s (((1 : Nat) : Int) * 86400) k, hall (0 + k)]
      simp only [Option.some.injEq]
      push_cast
      ring
  · push_neg at hle
    have hafter := daily_after_seek c s min h0 hle
    rcases lt_or_ge ((s + c) % 86400) ((min + c) % 86400) with hb | hb
    · rw [if_pos hb] at hafter
      refine ⟨((min + c) / 86400 + 1 - (s + c) / 86400).toNat, ?_, ?_, ?_⟩
      · intro j hj
        refine ⟨_, hall j, ?_⟩
        omega
      · intro v hv
        rw [hall _, Option.some.injEq] at hv
        omega
      · intro k
        rw [afterOcc, hafter, Option.some_bind,
          nthOcc_never_constOffset (fun _ => rfl) _ (((1 : Nat) : Int) * 86400) k, hall _]
        simp only [Option.some.injEq]
        push_cast
        omega
    · rw [if_neg (not_lt.mpr hb)] at hafter
      refine ⟨((min + c) / 86400 - (s + c) / 86400).toNat, ?_, ?_, ?_⟩
      · intro j hj
        refine ⟨_, hall j, ?_⟩
        omega
      · intro v hv
        rw [hall _, Option.some.injEq] at hv
        omega
      · intro k
        rw [afterOcc, hafter, Option.some_bind,
          nthOcc_never_constOffset (fun _ => rfl) _ (((1 : Nat) : Int) * 86400) k, hall _]
        simp only [Option.some.injEq]
        push_cast
        omega

theorem c1_after_drops_prefix_witness :
    SeekIdem (allOcc ⟨1, fixedTz 0, 0, .never⟩)
      (afterOcc ⟨1, fixedTz 0, 0, .never⟩ 100) 100 :=
  c1_after_drops_prefix 0 0 100 (by decide)

/-- C1 counterexample, three independent failures of the claim as stated:
(i) Daily with interval 2 — `after` ignores interval parity, seeking to an
odd day that `all()` never produces; (ii) Daily with `Count(2)` — `after`
does not cut the count, yielding occurrences past the end of `all()`;
(iii) Weekly — `after` builds its iterator stepping `interval` *days*
(`Duration::days`), not weeks, so the stream after the first value diverges
from `all()`. -/
theorem c1_counterexample :
    ¬ SeekIdem (allOcc ⟨2, utc, 0, .never⟩) (afterOcc ⟨2, utc, 0, .never⟩ 172801) 172801 ∧
    ¬ SeekIdem (allOcc ⟨1, utc, 0, .count 2⟩) (afterOcc ⟨1, utc, 0, .count 2⟩ 86401) 86401 ∧
    ¬ SeekIdem (wAllOcc ⟨1, utc, 0, .never⟩) (wAfterOcc ⟨1, utc, 0, .never⟩ 60) 60 := by
  have hcz : ∀ t, utc.offset t = 0 := fun _ => rfl
  refine ⟨?_, ?_, ?_⟩
  · have hall : ∀ j : Nat, allOcc ⟨2, utc, 0, .never⟩ j
        = some ((0 : Int) + (j : Int) * (((2 : Nat) : Int) * 86400)) := by
      intro j
      rw [allOcc, show Daily.all ⟨2, utc, 0, .never⟩
          = some ⟨.never, 0, utc, ((2 : Nat) : Int) * 86400⟩ from rfl, Option.some_bind,
        nthOcc_never_constOffset hcz 0 (((2 : Nat) : Int) * 86400) j]
    have hafter : ∀ k : Nat, afterOcc ⟨2, utc, 0, .never⟩ 172801 k
        = some ((259200 : Int) + (k : Int) * (((2 : Nat) : Int) * 86400)) := by
      intro k
      rw [afterOcc, show Daily.after ⟨2, utc, 0, .never⟩ 172801
          = some ⟨.never, 259200, utc, ((2 : Nat) : Int) * 86400⟩ from rfl, Option.some_bind,
        nthOcc_never_constOffset hcz 259200 (((2 : Nat) : Int) * 86400) k]
    rintro ⟨d, h1, h2, h3⟩
    rcases Nat.lt_or_ge d 2 with hd | hd
    · have h := h2 _ (hall d)
      omega
    rcases Nat.lt_or_ge d 3 with hd3 | hd3
    · have h := h3 0
      rw [hafter 0, hall (d + 0), Option.some.injEq] at h
      omega
    · obtain ⟨v, hv, hlt⟩ := h1 2 (by omega)
      rw [hall 2, Option.some.injEq] at hv
      omega
  · have hall : ∀ j : Nat, allOcc ⟨1, utc, 0, .count 2⟩ j
        = if j < 2 then some ((0 : Int) + (j : Int) * (((1 : Nat) : Int) * 86400)) else none := by
      intro j
      rw [allOcc, show Daily.all ⟨1, utc, 0, .count 2⟩
          = some ⟨.count 2, 0, utc, ((1 : Nat) : Int) * 86400⟩ from rfl, Option.some_bind,
        nthOcc_count_constOffset hcz 0 (((1 : Nat) : Int) * 86400) 2 j]
    have hafter0 : afterOcc ⟨1, utc, 0, .count 2⟩ 86401 0 = some 172800 := by
      rw [afterOcc, show Daily.after ⟨1, utc, 0, .count 2⟩ 86401
          = some ⟨.count 2, 172800, utc, ((1 : Nat) : Int) * 86400⟩ from rfl, Option.some_bind,
        nthOcc_count_constOffset hcz 172800 (((1 : Nat) : Int) * 86400) 2 0]
      norm_num
    rintro ⟨d, h1, h2, h3⟩
    rcases Nat.lt_or_ge d 2 with hd | hd
    · have h := h2 ((0 : Int) + (d : Int) * (((1 : Nat) : Int) * 86400))
        (by rw [hall d, if_pos hd])
      omega
    rcases Nat.lt_or_ge d 3 with hd3 | hd3
    · have h := h3 0
      rw [hafter0, hall (d + 0), if_neg (by omega)] at h
      exact Option.noConfusion h
    · obtain ⟨v, hv, hlt⟩ := h1 2 (by omega)
      rw [hall 2, if_neg (by norm_num)] at hv
      exact Option.noConfusion hv
  · have hall : ∀ j : Nat, wAllOcc ⟨1, utc, 0, .never⟩ j
        = some ((0 : Int) + (j : Int) * (((1 : Nat) : Int) * 604800)) := by
      intro j
      rw [wAllOcc, show Weekly.all ⟨1, utc, 0, .never⟩
          = some ⟨.never, 0, utc, ((1 : Nat) : Int) * 604800⟩ from rfl, Option.some_bind,
        nthOcc_never_constOffset hcz 0 (((1 : Nat) : Int) * 604800) j]
    have hafter : ∀ k : Nat, wAfterOcc ⟨1, utc, 0, .never⟩ 60 k
        = some ((604800 : Int) + (k : Int) * (((1 : Nat) : Int) * 86400)) := by
      intro k
      rw [wAfterOcc, show Weekly.after ⟨1, utc, 0, .never⟩ 60
          = some ⟨.never, 604800, utc, ((1 : Nat) : Int) * 86400⟩ from rfl, Option.some_bind,
        nthOcc_never_constOffset hcz 604800 (((1 : Nat) : Int) * 86400) k]
    rintro ⟨d, h1, h2, h3⟩
    rcases Nat.lt_or_ge d 1 with hd | hd
    · have h := h2 _ (hall d)
      omega
    rcases Nat.lt_or_ge d 2 with hd2 | hd2
    · have h := h3 1
      rw [hafter 1, hall (d + 1), Option.some.injEq] at h
      omega
    · obtain ⟨v, hv, hlt⟩ := h1 1 (by omega)
      rw [hall 1, Option.some.injEq] at hv
      omega

/-!
## C7: `Weekly::after` weekday alignment pushes one week
-/

/-- C7 counterexample: for interval ≥ 2 the weekday-matching push is still
exactly one week, not one interval.  Weekly rule with interval 3 (UTC),
start 0 (a Thursday at midnight), `M` one week later at 00:01 — on the
rule's own weekday and past its time-of-day: the first value of `after(M)`
is day 14, which is not one interval (three weeks) past the same-day
candidate, and is not an occurrence of `all()` at all (those fall on days
0, 21, 42, …) — though it is indeed not on `M`'s day. -/
theorem c7_counterexample :
    ((0 : Int) < 604860 ∧
      weekdayFromMonday (localDate utc 604860) = weekdayFromMonday (localDate utc 0) ∧
      localTime utc 0 < localTime utc 604860) ∧
    wAfterOcc ⟨3, utc, 0, .never⟩ 604860 0 = some 1209600 ∧
    (1209600 : Int) ≠ 604800 + 3 * 604800 ∧
    localDate utc 1209600 ≠ localDate utc 604860 ∧
    (∀ k, wAllOcc ⟨3, utc, 0, .never⟩ k ≠ some 1209600) := by
  refine ⟨⟨by decide, by decide, by decide⟩, by decide, by decide, by decide, ?_⟩
  intro k
  rw [wAllOcc, show Weekly.all ⟨3, utc, 0, .never⟩
      = some ⟨.never, 0, utc, ((3 : Nat) : Int) * 604800⟩ from rfl, Option.some_bind,
    nthOcc_never_constOffset (fun _ => rfl) 0 (((3 : Nat) : Int) * 604800)]
  intro hcon
  rw [Option.some.injEq] at hcon
  omega

/-- C7 amended (holds for interval = 1 in a fixed-offset zone): when `M` is
past `start`, on `start`'s weekday, with time-of-day past `start`'s, the
first value of `after(M)` is the occurrence exactly one week — one interval
for interval 1 — past `M`'s day: it equals the `(k+1)`-st value of `all()`
where `M` lies on day `7k` after `start`, and its local date is `M`'s date
plus 7, not `M`'s own day. -/
theorem c7_weekly_alignment (c s M : Int) (h0 : 0 ≤ M) (hgt : s < M)
    (hwd : weekdayFromMonday (localDate (fixedTz c) M)
      = weekdayFromMonday (localDate (fixedTz c) s))
    (htod : localTime (fixedTz c) s < localTime (fixedTz c) M) :
    wAfterOcc ⟨1, fixedTz c, s, .never⟩ M 0
      = some (s + 604800 * ((localDate (fixedTz c) M - localDate (fixedTz c) s) / 7 + 1)) ∧
    wAllOcc ⟨1, fixedTz c, s, .never⟩
        ((localDate (fixedTz c) M - localDate (fixedTz c) s) / 7 + 1).toNat
      = some (s + 604800 * ((localDate (fixedTz c) M - localDate (fixedTz c) s) / 7 + 1)) ∧
    localDate (fixedTz c)
        (s + 604800 * ((localDate (fixedTz c) M - localDate (fixedTz c) s) / 7 + 1))
      = localDate (fixedTz c) M + 7 := by
  have hmin : from_system_to_naive M = some M := by
    rw [from_system_to_naive, if_neg (by omega)]
  have hle : ¬ (M ≤ s) := by omega
  have hdiff0 : (weekdayFromMonday (localDate (fixedTz c) s) + 7 -
      weekdayFromMonday (localDate (fixedTz c) M)) % 7 = 0 := by
    rw [hwd]
    omega
  refine ⟨?_, ?_, ?_⟩
  · rw [wAfterOcc, Weekly.after, hmin]
    simp only [Option.bind_eq_bind, Option.some_bind, if_neg hle]
    rw [hdiff0]
    rw [if_pos ⟨rfl, htod⟩]
    simp only [CEnd.toEnd, Option.some_bind, fixedTz, nthOcc, TzDateIterator.next,
      Option.map_some', Option.some.injEq, localDate, localTime, localOf,
      weekdayFromMonday] at hwd htod ⊢
    omega
  · rw [wAllOcc, show Weekly.all ⟨1, fixedTz c, s, .never⟩
        = some ⟨.never, s, fixedTz c, ((1 : Nat) : Int) * 604800⟩ from rfl, Option.some_bind,
      nthOcc_never_constOffset (fun _ => rfl) s (((1 : Nat) : Int) * 604800)]
    rw [Option.some.injEq]
    simp only [localDate, localTime, localOf, fixedTz, weekdayFromMonday] at hwd ⊢
    omega
  · simp only [localDate, localTime, localOf, fixedTz, weekdayFromMonday] at hwd ⊢
    omega

theorem c7_weekly_alignment_witness :
    wAfterOcc ⟨1, fixedTz 0, 0, .never⟩ 604860 0
      = some (0 + 604800 * ((localDate (fixedTz 0) 604860 - localDate (fixedTz 0) 0) / 7 + 1)) :=
  (c7_weekly_alignment 0 0 604860 (by decide) (by decide) (by decide) (by decide)).1

theorem c5_until_at_or_before_witness :
    nthOcc { endP := End.until 86400, cursor := 0, tz := fixedTz 0,
             interval := ((1 : Nat) : Int) * 86400 : TzDateIterator } 1 = some 86400 := by
  have h := (c5_until_at_or_before 1 (fixedTz 0) 0 86400 (by decide)).2.2 0 1
  rw [h]
  norm_num

end Recurrence
